import Mathlib

/-! Verification of the autoclip engine core (interval merging, highlight
ranking, subtitle segmentation, clip assembly, face-presence filtering)
against its natural-language specification.  The Lean definitions below
are a shallow embedding of the Python source in
`engine/core/highlight.py`, `engine/core/subtitle.py`,
`engine/core/clipper.py` and `engine/core/pipeline.py`.  Times,
durations and confidences (Python floats) are modelled as rationals;
fallible external encoder calls are modelled by boolean outcome oracles
and an explicit action trace.
-/

namespace AutoClip

/-- A highlight interval as built by `HighlightDetector`.  Python
represents these as dicts with keys `start`, `end`, `confidence`,
`type` and (only after a merge has happened) `types`; the optional
`types` key is modelled with `Option`.  The dict key `end` is a Lean
keyword, so the field is called `stop`. -/
structure Highlight where
  start : ℚ
  stop : ℚ
  confidence : ℚ
  type : String
  types : Option (List String) := none
deriving DecidableEq

/-- Comparison key used by `highlights.sort(key=lambda x: x['start'])`. -/
def hlLE (a b : Highlight) : Prop := a.start ≤ b.start

instance : DecidableRel hlLE := fun a b => inferInstanceAs (Decidable (a.start ≤ b.start))

instance : IsTotal Highlight hlLE := ⟨fun a b => le_total a.start b.start⟩

instance : IsTrans Highlight hlLE := ⟨fun _ _ _ hab hbc => le_trans hab hbc⟩

/-- The in-place dict mutation performed by `_merge_highlights` when a
candidate overlaps the accumulator `last`:
`last['end'] = max(last['end'], current['end'])`,
`last['confidence'] = max(last['confidence'], current['confidence'])`,
`last['types'] = last.get('types', [last['type']]) + [current['type']]`. -/
def foldInto (last cur : Highlight) : Highlight :=
  { last with
    stop := max last.stop cur.stop
    confidence := max last.confidence cur.confidence
    types := some (last.types.getD [last.type] ++ [cur.type]) }

/-- The sweep loop of `_merge_highlights` over the sorted tail, carrying
the accumulator `last` (Python keeps `last = merged[-1]` and mutates it
in place). -/
def mergeAux (last : Highlight) : List Highlight → List Highlight
  | [] => [last]
  | c :: rest =>
    if c.start ≤ last.stop then mergeAux (foldInto last c) rest
    else last :: mergeAux c rest

/-- Embedding of `HighlightDetector._merge_highlights`: sort candidates by start
(Python `list.sort` is stable; `List.insertionSort` with a non-strict
key comparison is the same stable sort), then sweep-merge. -/
def merge_highlights (hs : List Highlight) : List Highlight :=
  match List.insertionSort hlLE hs with
  | [] => []
  | h :: t => mergeAux h t

/-- The kind tags carried by a (possibly merged) highlight, read the way
the code itself reads them: `h.get('types', [h['type']])`. -/
def kinds (h : Highlight) : List String := h.types.getD [h.type]

/-- The set of time points covered by one highlight interval. -/
def toSet (h : Highlight) : Set ℚ := {x | h.start ≤ x ∧ x ≤ h.stop}

/-- The set of time points covered by a list of highlight intervals. -/
def unionSet (hs : List Highlight) : Set ℚ := {x | ∃ h ∈ hs, h.start ≤ x ∧ x ≤ h.stop}

/-- Strict separation between two output intervals: `a.end < b.start`. -/
def sep (a b : Highlight) : Prop := a.stop < b.start

instance : DecidableRel sep := fun a b => inferInstanceAs (Decidable (a.stop < b.start))

/-- Embedding of `HighlightDetector.detect_highlights`, final ranking step:
`return highlights[:self.config.get('max_clips', 5)]` applied to the
merged list.  `maxClips = none` models an absent `max_clips` key. -/
def detect_highlights (maxClips : Option ℕ) (cands : List Highlight) : List Highlight :=
  (merge_highlights cands).take (maxClips.getD 5)


section Blocks

/-- Collapse a block of candidates into one merged highlight by folding
every later candidate into the first, exactly as the sweep does.  The
empty-block value is junk (blocks are always non-empty). -/
def collapseB : List Highlight → Highlight
  | [] => ⟨0, 0, 0, "", none⟩
  | h :: t => t.foldl foldInto h

/-- Ghost variant of the sweep that records which consecutive sorted
candidates were folded into each output interval. -/
def blocksAux (last : Highlight) (blk : List Highlight) : List Highlight → List (List Highlight)
  | [] => [blk]
  | c :: rest =>
    if c.start ≤ last.stop then blocksAux (foldInto last c) (blk ++ [c]) rest
    else blk :: blocksAux c [c] rest

/-- Block decomposition of `_merge_highlights`: the sorted candidates,
grouped into the runs the sweep folds together. -/
def mergeBlocks (hs : List Highlight) : List (List Highlight) :=
  match List.insertionSort hlLE hs with
  | [] => []
  | h :: t => blocksAux h [h] t

end Blocks

section Subtitles

/-- A transcription segment (`{start, end, text}` dict) as consumed by
`SubtitleGenerator`. -/
structure TranscriptSeg where
  start : ℚ
  stop : ℚ
  text : String
deriving DecidableEq

/-- One subtitle entry as built by `generate_subtitles_for_clip`
(`{text, start, end, is_highlight}`). -/
structure Subtitle where
  text : String
  start : ℚ
  stop : ℚ
  isHighlight : Bool
deriving DecidableEq

/-- The subtitle configuration knobs used by the segmentation code:
`max_words_per_line` (default 6) and the highlight keyword list. -/
structure SubtitleCfg where
  maxWordsPerLine : ℕ := 6
  highlightKeywords : List String :=
    ["wow", "gokil", "parah", "gila", "amazing", "incredible",
     "awesome", "brilliant", "sangat", "benar-benar"]
deriving DecidableEq

/-- Python `str.strip()`: drop leading and trailing whitespace
(char-list implementation, so that it evaluates by kernel reduction). -/
def pyTrim (s : String) : String :=
  ⟨((s.data.dropWhile Char.isWhitespace).reverse.dropWhile Char.isWhitespace).reverse⟩

/-- Python `str.lower()` over the characters of a string. -/
def lowerStr (s : String) : String := ⟨s.data.map Char.toLower⟩

/-- Does `needle` occur at the head of `hay` (helper for Python's
substring test `kw in text`)? -/
def strStartsWith : List Char → List Char → Bool
  | [], _ => true
  | _ :: _, [] => false
  | a :: as, b :: bs => a == b && strStartsWith as bs

/-- Python's substring containment `needle in hay`. -/
def strContains (needle hay : List Char) : Bool :=
  match hay with
  | [] => strStartsWith needle []
  | _ :: t => strStartsWith needle hay || strContains needle t

/-- Embedding of `SubtitleGenerator._is_highlight_text`: lowercase the text and test
each configured keyword for substring containment. -/
def is_highlight_text (keywords : List String) (text : String) : Bool :=
  keywords.any fun kw => strContains kw.data (lowerStr text).data

/-- A sentence-terminating character of the regex class `[.!?]`. -/
def isSentEnd (c : Char) : Bool := c == '.' || c == '!' || c == '?'

/-- Regroup maximal character runs into the alternating
`[text, separator, text, …, text]` shape that Python's
`re.split(r'([.!?]+)', text)` returns (empty text pieces included at
run boundaries). -/
def regroupRuns : List (List Char) → List (List Char)
  | [] => [[]]
  | r :: rest =>
    if isSentEnd (r.headD 'a') then [] :: r :: regroupRuns rest
    else
      match rest with
      | [] => [r]
      | r2 :: rest2 => r :: r2 :: regroupRuns rest2

/-- Python `re.split(r'([.!?]+)', text)`: split on runs of sentence-ending
punctuation, keeping the separators. -/
def splitSentences (s : String) : List String :=
  (regroupRuns (s.data.splitBy fun a b => isSentEnd a == isSentEnd b)).map
    fun l => String.mk l

/-- The loop `for i in range(0, len(sentences) - 1, 2)` over the alternating
split list: walk it two at a time, pairing each text piece with the
separator after it; a trailing unpaired piece is dropped. -/
def pairUp : List String → List (String × String)
  | t :: p :: rest => (t, p) :: pairUp rest
  | _ => []

/-- Python `str.split()`: the maximal non-whitespace runs of the
string, in order (split on whitespace runs, no empty pieces). -/
def pyWords (s : String) : List String :=
  ((s.data.splitBy fun a b => a.isWhitespace == b.isWhitespace).filter
    fun r => !(r.headD ' ').isWhitespace).map fun l => String.mk l

/-- Python `[words[i:i + m] for i in range(0, len(words), m)]` for `m ≥ 1`
(Python raises `ValueError` on step 0; the `m = 0` branch here is
unreachable under any configuration that runs). -/
def chunksOf (m : ℕ) : List α → List (List α)
  | [] => []
  | w :: t =>
    if m = 0 then []
    else (w :: t).take m :: chunksOf m ((w :: t).drop m)
termination_by ws => ws.length
decreasing_by
  simp only [List.length_drop, List.length_cons]
  omega

/-- The chunk loop of `_split_into_phrases` for long sentences: each
chunk becomes a phrase of duration `len(chunk) * duration_per_word`,
placed back to back from the running `current_time`. -/
def chunkPhrases (dpw : ℚ) (cur : ℚ) : List (List String) → List (String × ℚ × ℚ) × ℚ
  | [] => ([], cur)
  | ch :: rest =>
    if ch = [] then chunkPhrases dpw cur rest
    else
      let pe := cur + (ch.length : ℚ) * dpw
      let (ps, cur') := chunkPhrases dpw pe rest
      ((String.mk (List.intercalate [' '] (ch.map String.data)), cur, pe) :: ps, cur')

/-- The sentence loop of `_split_into_phrases`, threading
`current_time` across sentences of one segment. -/
def sentencePhrases (cfg : SubtitleCfg) (segStart segStop : ℚ) (cur : ℚ) :
    List (String × String) → List (String × ℚ × ℚ)
  | [] => []
  | (sentRaw, punct) :: rest =>
    let sentence := pyTrim sentRaw
    if sentence = "" then sentencePhrases cfg segStart segStop cur rest
    else
      let words := pyWords sentence
      if cfg.maxWordsPerLine * 2 < words.length then
        let dpw := (segStop - segStart) / (words.length : ℚ)
        let (ps, cur') := chunkPhrases dpw cur (chunksOf cfg.maxWordsPerLine words)
        ps ++ sentencePhrases cfg segStart segStop cur' rest
      else
        let dur := min (segStop - cur) (5/2)
        let pe := cur + dur
        (sentence ++ punct, cur, pe) :: sentencePhrases cfg segStart segStop pe rest

/-- Embedding of `SubtitleGenerator._split_into_phrases`. -/
def split_into_phrases (cfg : SubtitleCfg) (seg : TranscriptSeg) : List (String × ℚ × ℚ) :=
  sentencePhrases cfg seg.start seg.stop seg.start (pairUp (splitSentences (pyTrim seg.text)))

/-- The merge loop of `SubtitleGenerator._merge_subtitles`, carrying the
accumulator `last` (mutated in place in Python). -/
def mergeSubsAux (last : Subtitle) : List Subtitle → List Subtitle
  | [] => [last]
  | c :: rest =>
    if c.start - last.stop < 3/10 then
      mergeSubsAux
        { last with
          stop := max last.stop c.stop
          text := last.text ++ " " ++ c.text
          isHighlight := last.isHighlight || c.isHighlight } rest
    else last :: mergeSubsAux c rest

/-- Embedding of `SubtitleGenerator._merge_subtitles`. -/
def merge_subtitles : List Subtitle → List Subtitle
  | [] => []
  | s :: rest => mergeSubsAux s rest

/-- Embedding of `SubtitleGenerator.generate_subtitles_for_clip`: select segments
within the widened window, split each into phrases, clamp each phrase to
`[clipStart, clipEnd]`, drop phrases whose clamped span is under half a
second, then merge near-adjacent phrases. -/
def generate_subtitles_for_clip (cfg : SubtitleCfg) (segments : List TranscriptSeg)
    (clipStart clipEnd : ℚ) : List Subtitle :=
  let clipSegs := segments.filter fun s =>
    decide (clipStart - 1/2 ≤ s.start) && decide (s.stop ≤ clipEnd + 1/2)
  if clipSegs = [] then []
  else
    let subs := clipSegs.flatMap fun seg =>
      (split_into_phrases cfg seg).filterMap fun p =>
        let adjStart := max p.2.1 clipStart
        let adjEnd := min p.2.2 clipEnd
        if adjEnd - adjStart < 1/2 then none
        else some ⟨p.1, adjStart, adjEnd, is_highlight_text cfg.highlightKeywords p.1⟩
    merge_subtitles subs

/-- The window/duration invariant claimed for every emitted phrase. -/
def subOK (cs ce : ℚ) (s : Subtitle) : Prop :=
  cs ≤ s.start ∧ s.stop ≤ ce ∧ 1/2 ≤ s.stop - s.start

end Subtitles

section Clipper

/-- Which on-disk name an external call writes to: for one highlight
there is one temp name (`temp_<clip>.mp4`) and one final clip name. -/
inductive Target where
  | temp
  | final
deriving DecidableEq

/-- The filter mode of a trim encoder invocation. -/
inductive EncodeMode where
  | cropped
  | simple
deriving DecidableEq

/-- Observable external actions of the clip-assembly code for one
highlight, in program order.  `encodeClip` and `burnSubs` are encoder
invocations that write to their target file (a failed invocation may
leave a partial file there); `renameFile` is `Path.replace`, an atomic
rename; `unlinkFile` is the temp cleanup; the `emit` actions are
progress-sink events. -/
inductive Action where
  | encodeClip (mode : EncodeMode) (target : Target) (startTime duration : ℚ) (ok : Bool)
  | burnSubs (src tgt : Target) (ok : Bool)
  | renameFile (src tgt : Target)
  | unlinkFile (tgt : Target)
  | emitError
  | emitClip
deriving DecidableEq

/-- Outcomes of the fallible external encoder calls for one highlight
(`_try_create_cropped_clip`, `_create_simple_clip`,
`burn_subtitles_into_clip`). -/
structure Oracle where
  croppedOk : Bool
  simpleOk : Bool
  burnOk : Bool
deriving DecidableEq

/-- The `VideoClipper` configuration fields its control flow reads:
`enable_crop` (default True), `clip_duration` (default 30; an absent
key is `none`) and `subtitle.enabled` (default True), plus the subtitle
style knobs. -/
structure ClipperCfg where
  enableCrop : Bool := true
  clipDuration : Option ℚ := none
  subtitleEnabled : Bool := true
  subCfg : SubtitleCfg := {}
deriving DecidableEq

/-- The trim window `_create_clip_with_subtitle` computes:
`start_time = highlight['start']` and
`duration = min(highlight['end'] - highlight['start'],
config.get('clip_duration', 30))`. -/
def trimWindow (cfg : ClipperCfg) (h : Highlight) : ℚ × ℚ :=
  (h.start, min (h.stop - h.start) (cfg.clipDuration.getD 30))

/-- The crop/fallback phase of `_create_clip_with_subtitle`: with
cropping enabled, try the cropped encode and on failure retry the
simple encode with the same window; with cropping disabled run the
simple encode directly.  Returns the `crop_success` flag and the
actions performed. -/
def encodePhase (cfg : ClipperCfg) (o : Oracle) (st dur : ℚ) : Bool × List Action :=
  if cfg.enableCrop then
    if o.croppedOk then (true, [.encodeClip .cropped .temp st dur true])
    else (o.simpleOk, [.encodeClip .cropped .temp st dur false,
                       .encodeClip .simple .temp st dur o.simpleOk])
  else (o.simpleOk, [.encodeClip .simple .temp st dur o.simpleOk])

/-- Embedding of `VideoClipper._create_clip_with_subtitle` for one highlight:
returns the clip path handed back to `create_clips` (`none` models
Python's `None`) and the trace of external actions.  After a
successful burn the temp file still exists, so the trailing cleanup
unlinks it; in every `replace` branch the rename already consumed the
temp file and the cleanup does nothing. -/
def create_clip_with_subtitle (cfg : ClipperCfg) (o : Oracle) (h : Highlight)
    (transcription : Option (List TranscriptSeg)) : Option Target × List Action :=
  let st := (trimWindow cfg h).1
  let dur := (trimWindow cfg h).2
  let ep := encodePhase cfg o st dur
  if ep.1 = false then (none, ep.2 ++ [.emitError])
  else
    match transcription with
    | some segs =>
      let subtitles := generate_subtitles_for_clip cfg.subCfg segs st (st + dur)
      if subtitles = [] then (some .final, ep.2 ++ [.renameFile .temp .final])
      else if o.burnOk then
        (some .final, ep.2 ++ [.burnSubs .temp .final true, .unlinkFile .temp])
      else
        (some .final, ep.2 ++ [.burnSubs .temp .final false, .renameFile .temp .final])
    | none => (some .final, ep.2 ++ [.renameFile .temp .final])

/-- The loop body of `VideoClipper.create_clips` over the remaining
(highlight, encoder-outcome) pairs: collect the non-`None` clip paths
in order and concatenate the traces; a `clip` event is emitted for each
success. -/
def create_clips_loop (cfg : ClipperCfg) (segs : Option (List TranscriptSeg)) :
    List (Highlight × Oracle) → List Target × List Action
  | [] => ([], [])
  | ho :: rest =>
    let r := create_clip_with_subtitle cfg ho.2 ho.1
      (if cfg.subtitleEnabled then segs else none)
    let tail := create_clips_loop cfg segs rest
    match r.1 with
    | some p => (p :: tail.1, r.2 ++ [.emitClip] ++ tail.2)
    | none => (tail.1, r.2 ++ tail.2)

/-- Embedding of `VideoClipper.create_clips`: iterate over all highlights with their
per-item encoder outcomes.  The `transcription_segments` parameter
defaults to `None` in Python and is forwarded to each per-clip call
only when `subtitle.enabled` reads true. -/
def create_clips (cfg : ClipperCfg) (hs : List Highlight) (os : List Oracle)
    (segs : Option (List TranscriptSeg)) : List Target × List Action :=
  create_clips_loop cfg segs (hs.zip os)

/-- Step 7 of `AutoClipPipeline.process`:
`clips = self.clipper.create_clips(video_path, final_highlights)` —
the call passes no transcript, so the clipper's default
`transcription_segments = None` applies for every highlight. -/
def pipeline_create_clips (cfg : ClipperCfg) (hs : List Highlight) (os : List Oracle) :
    List Target × List Action :=
  create_clips cfg hs os none

/-- Does this action write file content to the final clip path?  Only
encoder invocations write content; a rename is an atomic promotion, not
a content write. -/
def writesFinal : Action → Bool
  | .encodeClip _ t _ _ _ => t = Target.final
  | .burnSubs _ t _ => t = Target.final
  | _ => false

/-- The spec's atomicity claim for a trace: no encoder invocation ever
writes to the final path (so the final path can only appear by rename
of a completed temp artifact). -/
def FinalByRenameOnly (tr : List Action) : Prop :=
  ∀ a ∈ tr, writesFinal a = false

instance (tr : List Action) : Decidable (FinalByRenameOnly tr) :=
  inferInstanceAs (Decidable (∀ a ∈ tr, writesFinal a = false))

end Clipper

section Pipeline

/-- A highlight dict as it flows through the pipeline's face step:
`face_present`/`face_ratio` keys exist only after
`FaceDetector.analyze_highlights` annotated the copy (`none` models the
absent key; the pipeline reads it as `h.get('face_present', True)`). -/
structure AnnotatedHighlight where
  hl : Highlight
  facePresent : Option Bool := none
  faceRatio : Option ℚ := none
deriving DecidableEq

/-- Step 6 of `AutoClipPipeline.process`: with face filtering enabled,
keep the annotated highlights whose `face_present` reads true; if that
leaves nothing, fall back to the full unfiltered list `highlights`. -/
def select_final_highlights (faceEnabled : Bool)
    (highlights annotated : List AnnotatedHighlight) : List AnnotatedHighlight :=
  if faceEnabled then
    let filtered := annotated.filter fun h => h.facePresent.getD true
    if filtered = [] then highlights else filtered
  else highlights

end Pipeline

section MergeLemmas


lemma foldInto_start (last cur : Highlight) : (foldInto last cur).start = last.start := rfl

lemma mergeAux_start_le {last : Highlight} {rest : List Highlight}
    (hs : List.Sorted hlLE (last :: rest)) :
    ∀ x ∈ mergeAux last rest, last.start ≤ x.start := by
  induction rest generalizing last with
  | nil =>
    intro x hx
    simp only [mergeAux, List.mem_singleton] at hx
    simp [hx]
  | cons c rest ih =>
    intro x hx
    rw [List.sorted_cons] at hs
    obtain ⟨hle, hsrest⟩ := hs
    by_cases hc : c.start ≤ last.stop
    · simp only [mergeAux, if_pos hc] at hx
      have : List.Sorted hlLE (foldInto last c :: rest) := by
        rw [List.sorted_cons]
        refine ⟨?_, hsrest.tail⟩
        intro b hb
        have := hle b (List.mem_cons_of_mem c hb)
        simpa [hlLE, foldInto] using this
      have := ih this x hx
      simpa [foldInto] using this
    · simp only [mergeAux, if_neg hc, List.mem_cons] at hx
      rcases hx with rfl | hx
      · exact le_refl _
      · have hcx := ih hsrest x hx
        exact le_trans (hle c (List.mem_cons_self c rest)) hcx

lemma mergeAux_pairwise_sep {last : Highlight} {rest : List Highlight}
    (hs : List.Sorted hlLE (last :: rest)) :
    List.Pairwise sep (mergeAux last rest) := by
  induction rest generalizing last with
  | nil => simp [mergeAux]
  | cons c rest ih =>
    rw [List.sorted_cons] at hs
    obtain ⟨hle, hsrest⟩ := hs
    by_cases hc : c.start ≤ last.stop
    · simp only [mergeAux, if_pos hc]
      apply ih
      rw [List.sorted_cons]
      refine ⟨?_, hsrest.tail⟩
      intro b hb
      have := hle b (List.mem_cons_of_mem c hb)
      simpa [hlLE, foldInto] using this
    · simp only [mergeAux, if_neg hc]
      rw [List.pairwise_cons]
      refine ⟨?_, ih hsrest⟩
      intro x hx
      have hcx := mergeAux_start_le hsrest x hx
      have hlast : last.stop < c.start := lt_of_not_le hc
      exact lt_of_lt_of_le hlast hcx

lemma unionSet_cons (h : Highlight) (t : List Highlight) :
    unionSet (h :: t) = toSet h ∪ unionSet t := by
  ext x
  simp [unionSet, toSet, or_comm]

lemma toSet_foldInto {last cur : Highlight}
    (h1 : last.start ≤ cur.start) (h2 : cur.start ≤ last.stop) :
    toSet (foldInto last cur) = toSet last ∪ toSet cur := by
  ext x
  simp only [toSet, foldInto, Set.mem_union, Set.mem_setOf_eq, le_max_iff]
  constructor
  · rintro ⟨hxs, hxe⟩
    rcases le_or_lt x last.stop with hx | hx
    · exact Or.inl ⟨hxs, hx⟩
    · rcases hxe with hxe | hxe
      · exact absurd hxe (not_le_of_lt hx)
      · exact Or.inr ⟨le_trans h2 (le_of_lt hx), hxe⟩
  · rintro (⟨hxs, hxe⟩ | ⟨hxs, hxe⟩)
    · exact ⟨hxs, Or.inl hxe⟩
    · exact ⟨le_trans h1 hxs, Or.inr hxe⟩

lemma mergeAux_unionSet {last : Highlight} {rest : List Highlight}
    (hs : List.Sorted hlLE (last :: rest)) :
    unionSet (mergeAux last rest) = unionSet (last :: rest) := by
  induction rest generalizing last with
  | nil => simp [mergeAux]
  | cons c rest ih =>
    rw [List.sorted_cons] at hs
    obtain ⟨hle, hsrest⟩ := hs
    by_cases hc : c.start ≤ last.stop
    · simp only [mergeAux, if_pos hc]
      have hsorted : List.Sorted hlLE (foldInto last c :: rest) := by
        rw [List.sorted_cons]
        refine ⟨?_, hsrest.tail⟩
        intro b hb
        have := hle b (List.mem_cons_of_mem c hb)
        simpa [hlLE, foldInto] using this
      rw [ih hsorted, unionSet_cons, unionSet_cons, unionSet_cons,
        toSet_foldInto (hle c (List.mem_cons_self c rest)) hc, Set.union_assoc]
    · simp only [mergeAux, if_neg hc]
      rw [unionSet_cons, ih hsrest, unionSet_cons, unionSet_cons, unionSet_cons]

lemma unionSet_perm {l₁ l₂ : List Highlight} (h : l₁.Perm l₂) :
    unionSet l₁ = unionSet l₂ := by
  ext x
  simp only [unionSet, Set.mem_setOf_eq]
  constructor
  · rintro ⟨a, ha, hx⟩; exact ⟨a, h.mem_iff.mp ha, hx⟩
  · rintro ⟨a, ha, hx⟩; exact ⟨a, h.mem_iff.mpr ha, hx⟩

lemma mergeAux_sorted {last : Highlight} {rest : List Highlight}
    (hs : List.Sorted hlLE (last :: rest)) :
    List.Sorted hlLE (mergeAux last rest) := by
  induction rest generalizing last with
  | nil => simp [mergeAux]
  | cons c rest ih =>
    rw [List.sorted_cons] at hs
    obtain ⟨hle, hsrest⟩ := hs
    by_cases hc : c.start ≤ last.stop
    · simp only [mergeAux, if_pos hc]
      apply ih
      rw [List.sorted_cons]
      refine ⟨?_, hsrest.tail⟩
      intro b hb
      have := hle b (List.mem_cons_of_mem c hb)
      simpa [hlLE, foldInto] using this
    · simp only [mergeAux, if_neg hc]
      rw [List.sorted_cons]
      refine ⟨?_, ih hsrest⟩
      intro b hb
      have hcb := mergeAux_start_le hsrest b hb
      exact le_trans (hle c (List.mem_cons_self c rest)) hcb

lemma mergeAux_of_pairwise_sep {last : Highlight} {rest : List Highlight}
    (h : List.Pairwise sep (last :: rest)) :
    mergeAux last rest = last :: rest := by
  induction rest generalizing last with
  | nil => simp [mergeAux]
  | cons c rest ih =>
    rw [List.pairwise_cons] at h
    obtain ⟨hsep, hrest⟩ := h
    have hnc : ¬ c.start ≤ last.stop :=
      not_le_of_lt (hsep c (List.mem_cons_self c rest))
    simp only [mergeAux, if_neg hnc]
    rw [ih hrest]

lemma merge_highlights_pairwise (hs : List Highlight) :
    List.Pairwise sep (merge_highlights hs) := by
  unfold merge_highlights
  have hsorted := List.sorted_insertionSort hlLE hs
  cases h : List.insertionSort hlLE hs with
  | nil => simp
  | cons a t =>
    rw [h] at hsorted
    exact mergeAux_pairwise_sep hsorted

lemma merge_highlights_sorted (hs : List Highlight) :
    List.Sorted hlLE (merge_highlights hs) := by
  unfold merge_highlights
  have hsorted := List.sorted_insertionSort hlLE hs
  cases h : List.insertionSort hlLE hs with
  | nil => simp
  | cons a t =>
    rw [h] at hsorted
    exact mergeAux_sorted hsorted

lemma merge_highlights_unionSet (hs : List Highlight) :
    unionSet (merge_highlights hs) = unionSet hs := by
  unfold merge_highlights
  have hperm := List.perm_insertionSort hlLE hs
  have hsorted := List.sorted_insertionSort hlLE hs
  cases h : List.insertionSort hlLE hs with
  | nil =>
    rw [h] at hperm
    have : hs = [] := hperm.symm.eq_nil
    simp [this]
  | cons a t =>
    rw [h] at hsorted hperm
    rw [mergeAux_unionSet hsorted]
    exact unionSet_perm hperm

end MergeLemmas

section BlockLemmas

lemma blocksAux_join (last : Highlight) (blk rest : List Highlight) :
    (blocksAux last blk rest).flatten = blk ++ rest := by
  induction rest generalizing last blk with
  | nil => simp [blocksAux]
  | cons c rest ih =>
    by_cases hc : c.start ≤ last.stop
    · simp only [blocksAux, if_pos hc, ih]
      simp
    · simp only [blocksAux, if_neg hc, List.flatten, ih]
      simp

lemma blocksAux_ne_nil (last : Highlight) (blk rest : List Highlight) (hblk : blk ≠ []) :
    ∀ b ∈ blocksAux last blk rest, b ≠ [] := by
  induction rest generalizing last blk with
  | nil =>
    intro b hb
    simp only [blocksAux, List.mem_singleton] at hb
    simpa [hb] using hblk
  | cons c rest ih =>
    intro b hb
    by_cases hc : c.start ≤ last.stop
    · simp only [blocksAux, if_pos hc] at hb
      exact ih _ _ (by simp) b hb
    · simp only [blocksAux, if_neg hc, List.mem_cons] at hb
      rcases hb with rfl | hb
      · exact hblk
      · exact ih _ _ (by simp) b hb

lemma collapseB_concat (h : Highlight) (t : List Highlight) (c : Highlight) :
    collapseB ((h :: t) ++ [c]) = foldInto (collapseB (h :: t)) c := by
  simp [collapseB, List.foldl_concat]

lemma mergeAux_eq_blocks (last : Highlight) (blk rest : List Highlight)
    (hblk : blk ≠ []) (hlast : last = collapseB blk) :
    mergeAux last rest = (blocksAux last blk rest).map collapseB := by
  induction rest generalizing last blk with
  | nil => simp [mergeAux, blocksAux, hlast]
  | cons c rest ih =>
    by_cases hc : c.start ≤ last.stop
    · simp only [mergeAux, if_pos hc, blocksAux]
      apply ih _ (blk ++ [c]) (by simp)
      obtain ⟨h, t, rfl⟩ : ∃ h t, blk = h :: t := by
        cases blk with
        | nil => exact absurd rfl hblk
        | cons h t => exact ⟨h, t, rfl⟩
      rw [collapseB_concat, ← hlast]
    · simp only [mergeAux, if_neg hc, blocksAux, List.map_cons]
      rw [← hlast, ih c [c] (by simp) (by simp [collapseB])]

lemma merge_highlights_eq_blocks (hs : List Highlight) :
    merge_highlights hs = (mergeBlocks hs).map collapseB := by
  unfold merge_highlights mergeBlocks
  cases List.insertionSort hlLE hs with
  | nil => simp
  | cons a t => exact mergeAux_eq_blocks a [a] t (by simp) (by simp [collapseB])

lemma mergeBlocks_join (hs : List Highlight) :
    (mergeBlocks hs).flatten = List.insertionSort hlLE hs := by
  unfold mergeBlocks
  cases List.insertionSort hlLE hs with
  | nil => simp
  | cons a t => simpa using blocksAux_join a [a] t

lemma mergeBlocks_ne_nil (hs : List Highlight) :
    ∀ b ∈ mergeBlocks hs, b ≠ [] := by
  unfold mergeBlocks
  cases List.insertionSort hlLE hs with
  | nil => simp
  | cons a t => exact blocksAux_ne_nil a [a] t (by simp)

lemma kinds_foldInto (a c : Highlight) : kinds (foldInto a c) = kinds a ++ [c.type] := by
  simp [kinds, foldInto]

lemma kinds_collapseB (h : Highlight) (t : List Highlight) :
    kinds (collapseB (h :: t)) = kinds h ++ t.map (·.type) := by
  induction t generalizing h with
  | nil => simp [collapseB]
  | cons c t ih =>
    have : collapseB (h :: c :: t) = collapseB (foldInto h c :: t) := by
      simp [collapseB]
    rw [this, ih, kinds_foldInto]
    simp

lemma confidence_collapseB (h : Highlight) (t : List Highlight) :
    (collapseB (h :: t)).confidence ∈ (h :: t).map (·.confidence) ∧
      ∀ x ∈ h :: t, x.confidence ≤ (collapseB (h :: t)).confidence := by
  induction t generalizing h with
  | nil => simp [collapseB]
  | cons c t ih =>
    have hcol : collapseB (h :: c :: t) = collapseB (foldInto h c :: t) := by
      simp [collapseB]
    obtain ⟨hmem, hbound⟩ := ih (foldInto h c)
    have hconf : (foldInto h c).confidence = max h.confidence c.confidence := rfl
    constructor
    · rw [hcol]
      simp only [List.map_cons, List.mem_cons] at hmem ⊢
      rcases hmem with hm | hm
      · rw [hm, hconf]
        rcases max_cases h.confidence c.confidence with ⟨he, _⟩ | ⟨he, _⟩
        · exact Or.inl he
        · exact Or.inr (Or.inl he)
      · exact Or.inr (Or.inr hm)
    · intro x hx
      rw [hcol]
      have hfold := hbound (foldInto h c) (List.mem_cons_self _ _)
      rcases List.mem_cons.mp hx with hxe | hx2
      · rw [hxe]
        exact le_trans (by rw [hconf]; exact le_max_left _ _) hfold
      · rcases List.mem_cons.mp hx2 with hxe | hx3
        · rw [hxe]
          exact le_trans (by rw [hconf]; exact le_max_right _ _) hfold
        · exact hbound x (List.mem_cons_of_mem _ hx3)

end BlockLemmas

section SubtitleLemmas

lemma mergeSubsAux_ok {cs ce : ℚ} {last : Subtitle} {rest : List Subtitle}
    (hl : subOK cs ce last) (hr : ∀ s ∈ rest, subOK cs ce s) :
    ∀ s ∈ mergeSubsAux last rest, subOK cs ce s := by
  induction rest generalizing last with
  | nil =>
    intro s hs
    simp only [mergeSubsAux, List.mem_singleton] at hs
    simpa [hs] using hl
  | cons c rest ih =>
    intro s hs
    have hc := hr c (List.mem_cons_self c rest)
    have hr' : ∀ x ∈ rest, subOK cs ce x := fun x hx => hr x (List.mem_cons_of_mem c hx)
    by_cases hgap : c.start - last.stop < 3/10
    · simp only [mergeSubsAux, if_pos hgap] at hs
      refine ih ?_ hr' s hs
      obtain ⟨h1, h2, h3⟩ := hl
      obtain ⟨c1, c2, c3⟩ := hc
      refine ⟨h1, ?_, ?_⟩
      · simpa using ⟨h2, c2⟩
      · have : last.stop ≤ max last.stop c.stop := le_max_left _ _
        simp only []
        calc (1 : ℚ)/2 ≤ last.stop - last.start := h3
          _ ≤ max last.stop c.stop - last.start := by linarith
    · simp only [mergeSubsAux, if_neg hgap, List.mem_cons] at hs
      rcases hs with rfl | hs
      · exact hl
      · exact ih hc hr' s hs

lemma merge_subtitles_ok {cs ce : ℚ} {subs : List Subtitle}
    (h : ∀ s ∈ subs, subOK cs ce s) :
    ∀ s ∈ merge_subtitles subs, subOK cs ce s := by
  cases subs with
  | nil => simp [merge_subtitles]
  | cons a t =>
    exact mergeSubsAux_ok (h a (List.mem_cons_self a t))
      (fun x hx => h x (List.mem_cons_of_mem a hx))

lemma generate_subtitles_ok (cfg : SubtitleCfg) (segments : List TranscriptSeg)
    (clipStart clipEnd : ℚ) :
    ∀ s ∈ generate_subtitles_for_clip cfg segments clipStart clipEnd,
      subOK clipStart clipEnd s := by
  intro s hs
  unfold generate_subtitles_for_clip at hs
  set clipSegs := segments.filter fun s =>
    decide (clipStart - 1/2 ≤ s.start) && decide (s.stop ≤ clipEnd + 1/2) with hsegs
  by_cases hempty : clipSegs = []
  · simp [hempty] at hs
  · simp only [if_neg hempty] at hs
    refine merge_subtitles_ok ?_ s hs
    intro x hx
    rw [List.mem_flatMap] at hx
    obtain ⟨seg, _, hx⟩ := hx
    rw [List.mem_filterMap] at hx
    obtain ⟨p, _, hp⟩ := hx
    by_cases hshort : min p.2.2 clipEnd - max p.2.1 clipStart < 1/2
    · rw [if_pos hshort] at hp
      exact absurd hp (by simp)
    · rw [if_neg hshort] at hp
      rw [Option.some.injEq] at hp
      subst hp
      refine ⟨le_max_right _ _, min_le_right _ _, ?_⟩
      simpa using le_of_not_lt hshort

end SubtitleLemmas

section IdempotenceLemmas

lemma merge_highlights_of_sorted_pairwise {l : List Highlight}
    (hsort : List.Sorted hlLE l) (hpair : List.Pairwise sep l) :
    merge_highlights l = l := by
  unfold merge_highlights
  rw [List.Sorted.insertionSort_eq hsort]
  cases l with
  | nil => rfl
  | cons a t => exact mergeAux_of_pairwise_sep hpair

end IdempotenceLemmas

section ClipperLemmas

lemma encodePhase_windows (cfg : ClipperCfg) (o : Oracle) (st dur : ℚ) :
    ∀ m t s d k, Action.encodeClip m t s d k ∈ (encodePhase cfg o st dur).2 →
      s = st ∧ d = dur := by
  intro m t s d k hmem
  unfold encodePhase at hmem
  split at hmem
  · split at hmem
    · simp only [List.mem_singleton, Action.encodeClip.injEq] at hmem
      exact ⟨hmem.2.2.1, hmem.2.2.2.1⟩
    · simp only [List.mem_cons, List.mem_singleton, Action.encodeClip.injEq,
        List.not_mem_nil, or_false] at hmem
      rcases hmem with hmem | hmem
      · exact ⟨hmem.2.2.1, hmem.2.2.2.1⟩
      · exact ⟨hmem.2.2.1, hmem.2.2.2.1⟩
  · simp only [List.mem_singleton, Action.encodeClip.injEq] at hmem
    exact ⟨hmem.2.2.1, hmem.2.2.2.1⟩

lemma encodePhase_temp_only (cfg : ClipperCfg) (o : Oracle) (st dur : ℚ) :
    ∀ a ∈ (encodePhase cfg o st dur).2, writesFinal a = false := by
  intro a ha
  unfold encodePhase at ha
  split at ha
  · split at ha <;> simp only [List.mem_cons, List.mem_singleton,
      List.not_mem_nil, or_false] at ha
    · rw [ha]; rfl
    · rcases ha with ha | ha <;> (rw [ha]; rfl)
  · simp only [List.mem_singleton] at ha
    rw [ha]; rfl

lemma create_clip_trace_shape (cfg : ClipperCfg) (o : Oracle) (h : Highlight)
    (tr : Option (List TranscriptSeg)) :
    ∃ rest, (create_clip_with_subtitle cfg o h tr).2 =
        (encodePhase cfg o (trimWindow cfg h).1 (trimWindow cfg h).2).2 ++ rest ∧
        ∀ m t s d k, Action.encodeClip m t s d k ∉ rest := by
  simp only [create_clip_with_subtitle]
  split
  · exact ⟨[.emitError], rfl, by intro m t s d k hmem; simp at hmem⟩
  · split
    · split
      · exact ⟨[.renameFile .temp .final], rfl, by intro m t s d k hmem; simp at hmem⟩
      · split
        · exact ⟨[.burnSubs .temp .final true, .unlinkFile .temp], rfl,
            by intro m t s d k hmem; simp at hmem⟩
        · exact ⟨[.burnSubs .temp .final false, .renameFile .temp .final], rfl,
            by intro m t s d k hmem; simp at hmem⟩
    · exact ⟨[.renameFile .temp .final], rfl, by intro m t s d k hmem; simp at hmem⟩

lemma create_clips_loop_fst (cfg : ClipperCfg) (segs : Option (List TranscriptSeg)) :
    ∀ l : List (Highlight × Oracle),
      (create_clips_loop cfg segs l).1 = l.filterMap fun ho =>
        (create_clip_with_subtitle cfg ho.2 ho.1
          (if cfg.subtitleEnabled then segs else none)).1 := by
  intro l
  induction l with
  | nil => rfl
  | cons ho rest ih =>
    simp only [create_clips_loop, List.filterMap_cons]
    cases hr : (create_clip_with_subtitle cfg ho.2 ho.1
        (if cfg.subtitleEnabled then segs else none)).1 with
    | none => simpa using ih
    | some p => simpa using ih

lemma encodePhase_actions (cfg : ClipperCfg) (o : Oracle) (st dur : ℚ) :
    ∀ a ∈ (encodePhase cfg o st dur).2, ∃ m t s d k, a = Action.encodeClip m t s d k := by
  intro a ha
  unfold encodePhase at ha
  split at ha
  · split at ha <;> simp only [List.mem_cons, List.mem_singleton,
      List.not_mem_nil, or_false] at ha
    · exact ⟨_, _, _, _, _, ha⟩
    · rcases ha with ha | ha <;> exact ⟨_, _, _, _, _, ha⟩
  · simp only [List.mem_singleton] at ha
    exact ⟨_, _, _, _, _, ha⟩

lemma finalByRenameOnly_append {l₁ l₂ : List Action}
    (h1 : ∀ a ∈ l₁, writesFinal a = false) (h2 : ∀ a ∈ l₂, writesFinal a = false) :
    FinalByRenameOnly (l₁ ++ l₂) := by
  intro a ha
  rcases List.mem_append.mp ha with ha | ha
  exacts [h1 a ha, h2 a ha]

lemma encodePhase_no_rename (cfg : ClipperCfg) (o : Oracle) (st dur : ℚ)
    (s t : Target) : Action.renameFile s t ∉ (encodePhase cfg o st dur).2 := by
  intro hmem
  obtain ⟨m, tg, st', d, k, heq⟩ := encodePhase_actions cfg o st dur _ hmem
  exact Action.noConfusion heq

end ClipperLemmas

section Claims

attribute [local semireducible] Rat.sub Rat.add Rat.mul Rat.inv

/-- Claim C1: for every list of candidate intervals, the output of the
interval merger is pairwise non-overlapping and non-touching (for any
two output intervals `a` before `b`, `a.end < b.start`), and the union
of the output intervals as a set of time points equals the union of the
input intervals. -/
theorem interval_merger_separated_and_covering (hs : List Highlight) :
    List.Pairwise sep (merge_highlights hs) ∧
    unionSet (merge_highlights hs) = unionSet hs :=
  ⟨merge_highlights_pairwise hs, merge_highlights_unionSet hs⟩

/-- Claim C9: interval merging is idempotent — applying the merger to
its own output returns that output unchanged (same intervals, order,
confidences and kind tags). -/
theorem merge_idempotent (hs : List Highlight) :
    merge_highlights (merge_highlights hs) = merge_highlights hs :=
  merge_highlights_of_sorted_pairwise (merge_highlights_sorted hs)
    (merge_highlights_pairwise hs)

/-- Claim C7: for every candidate list and configured `max_clips`, the
ranking step returns at most `max_clips` (default 5) highlights and its
output is exactly a prefix of the merged, start-ordered list it
truncates. -/
theorem ranker_prefix_bound (maxClips : Option ℕ) (cands : List Highlight) :
    (detect_highlights maxClips cands).length ≤ maxClips.getD 5 ∧
    detect_highlights maxClips cands <+: merge_highlights cands :=
  ⟨List.length_take_le (maxClips.getD 5) (merge_highlights cands),
   ⟨(merge_highlights cands).drop (maxClips.getD 5),
    List.take_append_drop (maxClips.getD 5) (merge_highlights cands)⟩⟩

/-- Claim C8: every merged interval carries confidence equal to the
maximum confidence of the candidates folded into it and a kinds list
that is the ordered kind tags of all its contributing candidates — a
single unmerged candidate contributing its one kind.  Stated via the
block decomposition of the sweep: the sorted candidates partition into
consecutive non-empty blocks, each output interval is the collapse of
its block, its confidence is the maximum over the block, and its kinds
list (as the code reads it) is the block's kind tags in order. -/
theorem merged_confidence_and_kinds (hs : List Highlight)
    (hraw : ∀ h ∈ hs, h.types = none) :
    ∃ blocks : List (List Highlight),
      blocks.flatten = List.insertionSort hlLE hs ∧
      (∀ b ∈ blocks, b ≠ []) ∧
      merge_highlights hs = blocks.map collapseB ∧
      ∀ b ∈ blocks,
        kinds (collapseB b) = b.map (·.type) ∧
        (collapseB b).confidence ∈ b.map (·.confidence) ∧
        ∀ x ∈ b, x.confidence ≤ (collapseB b).confidence := by
  refine ⟨mergeBlocks hs, mergeBlocks_join hs, mergeBlocks_ne_nil hs,
    merge_highlights_eq_blocks hs, ?_⟩
  intro b hb
  cases b with
  | nil => exact absurd rfl (mergeBlocks_ne_nil hs [] hb)
  | cons h t =>
    refine ⟨?_, confidence_collapseB h t⟩
    have hmem : h ∈ hs := by
      have hflat : h ∈ (mergeBlocks hs).flatten :=
        List.mem_flatten.mpr ⟨h :: t, hb, List.mem_cons_self h t⟩
      rw [mergeBlocks_join hs] at hflat
      exact (List.mem_insertionSort hlLE).mp hflat
    have hnone : h.types = none := hraw h hmem
    rw [kinds_collapseB, kinds, hnone]
    simp

/-- Witness for claim C8, at the spec's scenario: candidates
energy `[0,10]` (conf 0.9), keyword `[5,8]` (conf 0.8) and
silence-gap `[12,14]` (conf 0.7). -/
theorem merged_confidence_and_kinds_witness :
    (∀ h ∈ ([⟨0, 10, 9/10, "energy", none⟩, ⟨5, 8, 4/5, "keyword", none⟩,
        ⟨12, 14, 7/10, "silence_gap", none⟩] : List Highlight), h.types = none) ∧
    (∃ blocks : List (List Highlight),
      blocks.flatten = List.insertionSort hlLE
        [⟨0, 10, 9/10, "energy", none⟩, ⟨5, 8, 4/5, "keyword", none⟩,
         ⟨12, 14, 7/10, "silence_gap", none⟩] ∧
      (∀ b ∈ blocks, b ≠ []) ∧
      merge_highlights [⟨0, 10, 9/10, "energy", none⟩, ⟨5, 8, 4/5, "keyword", none⟩,
        ⟨12, 14, 7/10, "silence_gap", none⟩] = blocks.map collapseB ∧
      ∀ b ∈ blocks,
        kinds (collapseB b) = b.map (·.type) ∧
        (collapseB b).confidence ∈ b.map (·.confidence) ∧
        ∀ x ∈ b, x.confidence ≤ (collapseB b).confidence) :=
  ⟨by decide, merged_confidence_and_kinds _ (by decide)⟩

/-- Claim C3: with face filtering enabled, a non-empty highlight list
entering the filter step always yields a non-empty list for clip
assembly; when no annotated highlight reads `face_present = true` the
filter result is discarded and the full unfiltered list is returned. -/
theorem face_filter_nonempty (highlights annotated : List AnnotatedHighlight)
    (hne : highlights ≠ []) :
    select_final_highlights true highlights annotated ≠ [] ∧
    ((annotated.filter fun h => h.facePresent.getD true) = [] →
      select_final_highlights true highlights annotated = highlights) := by
  constructor
  · unfold select_final_highlights
    rw [if_pos rfl]
    by_cases hf : (annotated.filter fun h => h.facePresent.getD true) = []
    · rw [if_pos hf]; exact hne
    · rw [if_neg hf]; exact hf
  · intro hf
    unfold select_final_highlights
    rw [if_pos rfl, if_pos hf]

/-- Witness for claim C3: one highlight, annotated copy with
`face_present = false`, so the filtered subset is empty and the
original list survives. -/
theorem face_filter_nonempty_witness :
    select_final_highlights true [⟨⟨0, 1, 1, "energy", none⟩, none, none⟩]
        [⟨⟨0, 1, 1, "energy", none⟩, some false, some 0⟩] ≠ [] ∧
    select_final_highlights true [⟨⟨0, 1, 1, "energy", none⟩, none, none⟩]
        [⟨⟨0, 1, 1, "energy", none⟩, some false, some 0⟩] =
      [⟨⟨0, 1, 1, "energy", none⟩, none, none⟩] :=
  have t := face_filter_nonempty [⟨⟨0, 1, 1, "energy", none⟩, none, none⟩]
    [⟨⟨0, 1, 1, "energy", none⟩, some false, some 0⟩] (by decide)
  ⟨t.1, t.2 (by decide)⟩

/-- Claim C4: for every transcript-segment list and clip window, every
phrase the subtitle segmenter returns (after its merge pass) lies
inside `[clipStart, clipEnd]` and displays for at least half a
second. -/
theorem subtitle_phrases_in_window (cfg : SubtitleCfg) (segments : List TranscriptSeg)
    (clipStart clipEnd : ℚ) :
    ∀ s ∈ generate_subtitles_for_clip cfg segments clipStart clipEnd,
      clipStart ≤ s.start ∧ s.stop ≤ clipEnd ∧ 1/2 ≤ s.stop - s.start :=
  fun s hs => generate_subtitles_ok cfg segments clipStart clipEnd s hs

/-- Witness for claim C4: the segment `[1,3] "hello world."` in the
clip window `[0,10]` produces the phrase `[1,3]`, which satisfies the
window and duration bounds. -/
theorem subtitle_phrases_in_window_witness :
    (0 : ℚ) ≤ (1 : ℚ) ∧ (3 : ℚ) ≤ 10 ∧ 1/2 ≤ (3 : ℚ) - 1 := by
  have hmem : (⟨"hello world.", 1, 3, false⟩ : Subtitle) ∈
      generate_subtitles_for_clip {} [⟨1, 3, "hello world."⟩] 0 10 := by decide
  exact subtitle_phrases_in_window {} [⟨1, 3, "hello world."⟩] 0 10 _ hmem

/-- Claim C10: the trim window handed to the encoder for a highlight
always starts at `highlight.start` and has duration
`min(highlight.end - highlight.start, clip_duration default 30)` —
every encoder trim invocation in the trace uses exactly that window. -/
theorem trim_window_duration (cfg : ClipperCfg) (o : Oracle) (h : Highlight)
    (tr : Option (List TranscriptSeg)) :
    ∀ m t s d k, Action.encodeClip m t s d k ∈ (create_clip_with_subtitle cfg o h tr).2 →
      s = h.start ∧ d = min (h.stop - h.start) (cfg.clipDuration.getD 30) := by
  intro m t s d k hmem
  obtain ⟨rest, heq, hnot⟩ := create_clip_trace_shape cfg o h tr
  rw [heq, List.mem_append] at hmem
  rcases hmem with hmem | hmem
  · exact encodePhase_windows cfg o _ _ m t s d k hmem
  · exact absurd hmem (hnot m t s d k)

/-- Witness for claim C10: the cropped encode of highlight `[0,10]`
with no configured `clip_duration` uses window start 0, duration
`min(10 - 0, 30)`. -/
theorem trim_window_duration_witness :
    (0 : ℚ) = (⟨0, 10, 1, "energy", none⟩ : Highlight).start ∧
    (10 : ℚ) = min ((⟨0, 10, 1, "energy", none⟩ : Highlight).stop -
        (⟨0, 10, 1, "energy", none⟩ : Highlight).start)
      (({} : ClipperCfg).clipDuration.getD 30) :=
  trim_window_duration {} ⟨true, true, true⟩ ⟨0, 10, 1, "energy", none⟩ none
    .cropped .temp 0 10 true (by decide)

/-- Claim C2: with cropping enabled, when the cropped encode fails the
same trim window is retried uncropped; if that also fails the highlight
yields no clip path and an error event, and the loop result over all
highlights is the per-item `filterMap` of independent outcomes, so one
highlight's failure never aborts the processing of the others. -/
theorem clip_crop_fallback_and_continue
    (cfg : ClipperCfg) (o : Oracle) (h : Highlight) (tr : Option (List TranscriptSeg))
    (hs : List Highlight) (os : List Oracle) (segs : Option (List TranscriptSeg))
    (hcrop : cfg.enableCrop = true) (hfail : o.croppedOk = false) :
    Action.encodeClip .cropped .temp h.start
        (min (h.stop - h.start) (cfg.clipDuration.getD 30)) false
      ∈ (create_clip_with_subtitle cfg o h tr).2 ∧
    Action.encodeClip .simple .temp h.start
        (min (h.stop - h.start) (cfg.clipDuration.getD 30)) o.simpleOk
      ∈ (create_clip_with_subtitle cfg o h tr).2 ∧
    (o.simpleOk = false →
      (create_clip_with_subtitle cfg o h tr).1 = none ∧
      Action.emitError ∈ (create_clip_with_subtitle cfg o h tr).2) ∧
    (create_clips cfg hs os segs).1 = (hs.zip os).filterMap (fun ho =>
      (create_clip_with_subtitle cfg ho.2 ho.1
        (if cfg.subtitleEnabled then segs else none)).1) := by
  have hep : encodePhase cfg o (trimWindow cfg h).1 (trimWindow cfg h).2 =
      (o.simpleOk,
        [Action.encodeClip .cropped .temp (trimWindow cfg h).1 (trimWindow cfg h).2 false,
         Action.encodeClip .simple .temp (trimWindow cfg h).1 (trimWindow cfg h).2 o.simpleOk]) := by
    unfold encodePhase
    rw [hcrop, hfail]
    simp
  obtain ⟨rest, heq, -⟩ := create_clip_trace_shape cfg o h tr
  refine ⟨?_, ?_, ?_, create_clips_loop_fst cfg segs (hs.zip os)⟩
  · rw [heq, hep]
    simp [trimWindow]
  · rw [heq, hep]
    simp [trimWindow]
  · intro hsim
    simp only [create_clip_with_subtitle]
    rw [hep, hsim]
    simp

/-- Intended per-clip subtitle behaviour of the clip assembler (the
code of `_create_clip_with_subtitle` when a transcript is actually
passed to it): for a highlight whose base encode succeeds, phrases are
taken from the segmenter over the clip window; when phrases exist a
burn is attempted, and when the burn fails the un-burned temp artifact
is renamed to the final path and the clip is still returned. -/
theorem subtitle_burn_failure_promotes_temp
    (cfg : ClipperCfg) (o : Oracle) (h : Highlight) (segs : List TranscriptSeg)
    (henc : (encodePhase cfg o (trimWindow cfg h).1 (trimWindow cfg h).2).1 = true)
    (hsubs : generate_subtitles_for_clip cfg.subCfg segs (trimWindow cfg h).1
        ((trimWindow cfg h).1 + (trimWindow cfg h).2) ≠ []) :
    Action.burnSubs .temp .final o.burnOk ∈ (create_clip_with_subtitle cfg o h (some segs)).2 ∧
    (o.burnOk = false →
      (create_clip_with_subtitle cfg o h (some segs)).1 = some Target.final ∧
      Action.renameFile .temp .final ∈ (create_clip_with_subtitle cfg o h (some segs)).2) := by
  simp only [create_clip_with_subtitle]
  rw [if_neg (by simp [henc])]
  rw [if_neg hsubs]
  cases hb : o.burnOk with
  | false =>
    rw [if_neg (by simp)]
    refine ⟨by simp, fun _ => ⟨rfl, by simp⟩⟩
  | true =>
    rw [if_pos rfl]
    refine ⟨by simp, fun hx => absurd hx (by simp)⟩

/-- Witness for claim C2: highlight `[0,10]`, cropped and simple
encodes both fail, one-element run — the fallback is attempted with the
same window, the item fails with an error event, and the run result is
the per-item filterMap. -/
theorem clip_crop_fallback_and_continue_witness :
    Action.encodeClip .cropped .temp 0 (min ((10 : ℚ) - 0) 30) false ∈
      (create_clip_with_subtitle {} ⟨false, false, true⟩
        ⟨0, 10, 1, "energy", none⟩ none).2 ∧
    Action.encodeClip .simple .temp 0 (min ((10 : ℚ) - 0) 30) false ∈
      (create_clip_with_subtitle {} ⟨false, false, true⟩
        ⟨0, 10, 1, "energy", none⟩ none).2 ∧
    ((create_clip_with_subtitle {} ⟨false, false, true⟩
        ⟨0, 10, 1, "energy", none⟩ none).1 = none ∧
      Action.emitError ∈ (create_clip_with_subtitle {} ⟨false, false, true⟩
        ⟨0, 10, 1, "energy", none⟩ none).2) ∧
    (create_clips {} [⟨0, 10, 1, "energy", none⟩] [⟨false, false, true⟩] none).1 =
      ([(⟨0, 10, 1, "energy", none⟩ : Highlight)].zip
        [(⟨false, false, true⟩ : Oracle)]).filterMap (fun ho =>
          (create_clip_with_subtitle {} ho.2 ho.1
            (if ({} : ClipperCfg).subtitleEnabled then none else none)).1) :=
  have t := clip_crop_fallback_and_continue {} ⟨false, false, true⟩
    ⟨0, 10, 1, "energy", none⟩ none [⟨0, 10, 1, "energy", none⟩]
    [⟨false, false, true⟩] none rfl rfl
  ⟨t.1, t.2.1, t.2.2.1 rfl, t.2.2.2⟩

/-- Instance of the per-clip subtitle behaviour: highlight `[0,10]`,
segment `[1,3] "hello world."` yields phrases, the burn fails, the
temp artifact is renamed to final and the clip path is returned. -/
theorem subtitle_burn_failure_promotes_temp_witness :
    Action.burnSubs .temp .final false ∈
      (create_clip_with_subtitle {} ⟨true, true, false⟩ ⟨0, 10, 1, "energy", none⟩
        (some [⟨1, 3, "hello world."⟩])).2 ∧
    ((create_clip_with_subtitle {} ⟨true, true, false⟩ ⟨0, 10, 1, "energy", none⟩
        (some [⟨1, 3, "hello world."⟩])).1 = some Target.final ∧
      Action.renameFile .temp .final ∈
        (create_clip_with_subtitle {} ⟨true, true, false⟩ ⟨0, 10, 1, "energy", none⟩
          (some [⟨1, 3, "hello world."⟩])).2) :=
  have t := subtitle_burn_failure_promotes_temp {} ⟨true, true, false⟩
    ⟨0, 10, 1, "energy", none⟩ [⟨1, 3, "hello world."⟩] (by decide) (by decide)
  ⟨t.1, t.2 rfl⟩

/-- Counterexample to claim C5 as stated: with cropping enabled, a
successful encode and a segment that yields subtitle phrases, the
subtitle burn is an encoder write directed at the final clip path — the
trace is not free of direct final-path writes, so the final path is not
established solely by an atomic rename in the subtitle-burn branch. -/
theorem final_rename_only_counterexample :
    ¬ FinalByRenameOnly
      (create_clip_with_subtitle {} ⟨true, true, true⟩ ⟨0, 10, 1, "energy", none⟩
        (some [⟨1, 3, "hello world."⟩])).2 := by decide

/-- Claim C5 amended: in every branch in which no subtitle burn is
attempted, clip production writes only to the temp name and the final
path arises solely by rename of the completed temp artifact; a failed
highlight performs no write to and no rename onto the final path; and a
returned clip path was established either by such a rename or — in the
subtitle-burn branch, deviating from the original claim — by a
completed burn encode written directly to the final path. -/
theorem clip_atomic_promotion_amended
    (cfg : ClipperCfg) (o : Oracle) (h : Highlight) (tr : Option (List TranscriptSeg)) :
    ((∀ k, Action.burnSubs Target.temp Target.final k ∉
        (create_clip_with_subtitle cfg o h tr).2) →
      FinalByRenameOnly (create_clip_with_subtitle cfg o h tr).2) ∧
    ((create_clip_with_subtitle cfg o h tr).1 = none →
      FinalByRenameOnly (create_clip_with_subtitle cfg o h tr).2 ∧
      Action.renameFile Target.temp Target.final ∉
        (create_clip_with_subtitle cfg o h tr).2) ∧
    ((create_clip_with_subtitle cfg o h tr).1 = some Target.final →
      Action.renameFile Target.temp Target.final ∈
          (create_clip_with_subtitle cfg o h tr).2 ∨
      Action.burnSubs Target.temp Target.final true ∈
          (create_clip_with_subtitle cfg o h tr).2) := by
  have htmp := encodePhase_temp_only cfg o (trimWindow cfg h).1 (trimWindow cfg h).2
  have hnr := encodePhase_no_rename cfg o (trimWindow cfg h).1 (trimWindow cfg h).2
    Target.temp Target.final
  simp only [create_clip_with_subtitle]
  split
  · refine ⟨fun _ => ?_, fun _ => ⟨?_, ?_⟩, fun hx => absurd hx (by simp)⟩
    · exact finalByRenameOnly_append htmp (by intro a ha; simp at ha; rw [ha]; rfl)
    · exact finalByRenameOnly_append htmp (by intro a ha; simp at ha; rw [ha]; rfl)
    · intro hmem
      rcases List.mem_append.mp hmem with hmem | hmem
      · exact hnr hmem
      · simp at hmem
  · split
    · split
      · refine ⟨fun _ => ?_, fun hx => absurd hx (by simp), fun _ => Or.inl (by simp)⟩
        exact finalByRenameOnly_append htmp (by intro a ha; simp at ha; rw [ha]; rfl)
      · split
        · refine ⟨fun hnb => absurd ?_ (hnb true), fun hx => absurd hx (by simp),
            fun _ => Or.inr (by simp)⟩
          simp
        · refine ⟨fun hnb => absurd ?_ (hnb false), fun hx => absurd hx (by simp),
            fun _ => Or.inl (by simp)⟩
          simp
    · refine ⟨fun _ => ?_, fun hx => absurd hx (by simp), fun _ => Or.inl (by simp)⟩
      exact finalByRenameOnly_append htmp (by intro a ha; simp at ha; rw [ha]; rfl)

/-- Witness for the amended claim C5, at a highlight processed without
transcription: no burn occurs, the trace writes only the temp name, and
the returned final path was established by the rename. -/
theorem clip_atomic_promotion_amended_witness :
    FinalByRenameOnly
      (create_clip_with_subtitle {} ⟨true, true, true⟩ ⟨0, 10, 1, "energy", none⟩ none).2 ∧
    (Action.renameFile Target.temp Target.final ∈
        (create_clip_with_subtitle {} ⟨true, true, true⟩ ⟨0, 10, 1, "energy", none⟩ none).2 ∨
      Action.burnSubs Target.temp Target.final true ∈
        (create_clip_with_subtitle {} ⟨true, true, true⟩ ⟨0, 10, 1, "energy", none⟩ none).2) :=
  have t := clip_atomic_promotion_amended {} ⟨true, true, true⟩
    ⟨0, 10, 1, "energy", none⟩ none
  ⟨t.1 (by intro k; cases k <;> decide), t.2.2 (by decide)⟩

/-- Claim C6, evaluated at the failing input: a pipeline run with
subtitles enabled (the default), one highlight `[0,10]` whose encode
succeeds, and a transcript segment `[1,3] "hello world."` that yields
phrases for the clip window `[0,10]`.  Because Step 7 of
`AutoClipPipeline.process` calls `create_clips` without the transcript,
no subtitle burn is ever attempted for any highlight — the temp
artifact is renamed to final with no phrases obtained — although the
segmenter would have produced phrases for this clip window. -/
theorem pipeline_run_no_subtitle_burn :
    ({} : ClipperCfg).subtitleEnabled = true ∧
    generate_subtitles_for_clip ({} : ClipperCfg).subCfg [⟨1, 3, "hello world."⟩]
      0 (0 + min ((10 : ℚ) - 0) 30) ≠ [] ∧
    (∀ k s t, Action.burnSubs s t k ∉
      (pipeline_create_clips {} [⟨0, 10, 1, "energy", none⟩] [⟨true, true, true⟩]).2) ∧
    Action.renameFile Target.temp Target.final ∈
      (pipeline_create_clips {} [⟨0, 10, 1, "energy", none⟩] [⟨true, true, true⟩]).2 := by
  refine ⟨rfl, by decide, ?_, by decide⟩
  intro k s t
  cases k <;> cases s <;> cases t <;> decide

end Claims

end AutoClip
